import Mathlib

/-!
Verification development for the IRC repository (src/includes/Channel.hpp,
src/includes/server.hpp).  The C++ data model and operations are shallowly
embedded as Lean definitions; machine `int` socket values are modelled as
`Int`, `std::vector<T>` as `List T`, `std::string` as `String` (or `List
Char` for the byte-level framer).  `Client.hpp` and `Command.hpp` and all
implementation files are absent from src; where a claim depends on them,
definitions are modelled from the spec and say so in their doc comment.
-/

namespace IRC

/-- Modelled from the spec: the `Client` class lives in the missing
`Client.hpp`.  Its two accessors used by `Channel.hpp` (`getClientSock`,
`getNickName`) determine a socket field and a nickname field; the session
owns a socket (C++ `int`) and a nickname. -/
structure Client where
  clientSock : Int
  nickName : String
deriving DecidableEq

/-- Shallow embedding of the loop body of `Channel::sendMsg2All`
(Channel.hpp lines 29-39):

    size_t i = 0;
    while (i != channelClients.size())
    \x7b
        if (sender == channelClients[i].getClientSock())
            i++;
        send(channelClients[i].getClientSock(), msg.c_str(), msg.size(), 0);
        i++;
    \x7d

The loop is written over the suffix `channelClients.drop i`: the guard
`i != channelClients.size()` is `rest = []`; `channelClients[i]` is the head
of the suffix.  When the sender test succeeds the code increments `i` and
then indexes `channelClients[i]` again, i.e. reads the head of the tail of
the suffix; if that tail is empty the access `channelClients[size()]` is out
of bounds, modelled as `Except.error ()`.  On success the result is the list
of socket values passed to `send`, in call order. -/
def sendLoop (sender : Int) : List Client → Except Unit (List Int)
  | [] => Except.ok []
  | c :: rest =>
    if sender = c.clientSock then
      match rest with
      | [] => Except.error ()
      | c2 :: rest2 => (sendLoop sender rest2).map (fun l => c2.clientSock :: l)
    else
      (sendLoop sender rest).map (fun l => c.clientSock :: l)

/-- `Channel::sendMsg2All(sender, msg)`: run the loop from `i = 0`.  The
message text does not influence the control flow, so the embedding records
only the sequence of destination sockets. -/
def sendMsg2All (channelClients : List Client) (sender : Int) : Except Unit (List Int) :=
  sendLoop sender channelClients

/-- Idealized undefined-behaviour semantics of the same loop, used to study
termination: reading `channelClients[k]` for `k ≥ size()` does not trap but
yields an arbitrary garbage `Client` (the function `garbage`), and the loop
is run with explicit fuel.  `none` means the guard `i != size()` never
became false within the given fuel.  The index `i` is kept explicitly, as in
the source. -/
def sendLoopUB (garbage : Nat → Client) (channelClients : List Client) (sender : Int) :
    Nat → Nat → Option (List Int)
  | _, 0 => none
  | i, fuel + 1 =>
    if i = channelClients.length then some []
    else
      let c := (channelClients[i]?).getD (garbage i)
      let j := if sender = c.clientSock then i + 1 else i
      let c2 := (channelClients[j]?).getD (garbage j)
      (sendLoopUB garbage channelClients sender (j + 1) fuel).map
        (fun l => c2.clientSock :: l)

/-- Once the index has passed the vector size, the guard `i != size()` can
never become false again: every further iteration only increases `i`. -/
theorem sendLoopUB_overrun (garbage : Nat → Client) (channelClients : List Client)
    (sender : Int) :
    ∀ (fuel i : Nat), channelClients.length < i →
      sendLoopUB garbage channelClients sender i fuel = none := by
  intro fuel
  induction fuel with
  | zero => intro i _; rfl
  | succ n ih =>
    intro i hi
    have hne : i ≠ channelClients.length := by omega
    simp only [sendLoopUB, hne, if_false]
    have : channelClients.length <
        (if sender = (channelClients[i]?.getD (garbage i)).clientSock then i + 1 else i) + 1 := by
      split <;> omega
    rw [ih _ this]
    rfl

/-- Caller-observable effect of the template `Server::removeClient`
(server.hpp lines 71-80):

    template<typename T>
    void removeClient(std::vector<T> vec, int clientsock)

The vector parameter is taken BY VALUE, so the body (which is itself
ill-formed C++: `vec.begin` without parentheses, `typename T::iterator` for
an element type `T`, and `vec.erase(*it)` passing a value where an iterator
is required) can only act on a local copy that is destroyed on return.  The
vector object the caller passed is therefore returned unchanged. -/
def removeClient (vec : List Int) (clientsock : Int) : List Int :=
  let _ := clientsock
  vec

/-- Modelled from the spec: the ChannelRegistry state (spec section 4.4).
The command handlers (`Command.hpp` and all implementation files) are absent
from src, so the registry is modelled from the spec's words: channels are
keyed by name and own a set of member session identifiers, and each
session's joined-channel set is the back-reference table.  A channel exists
exactly when its member list is non-empty ("created lazily on first
successful join"; "destroyed when its member set becomes empty"). -/
structure RegState where
  channelMembers : String → List Nat
  joinedChannels : Nat → List String

/-- The empty registry: no channel has members, no session has joined. -/
def regInit : RegState :=
  ⟨fun _ => [], fun _ => []⟩

/-- Modelled from the spec: the accepted path of Join(channel, session)
(spec section 4.4) adds the session to the member set and the channel to
the session's joined set.  A rejected join (wrong channel password) changes
nothing and so trivially preserves every state invariant. -/
def joinOp (st : RegState) (ch : String) (sid : Nat) : RegState :=
  ⟨fun c => if c = ch then List.insert sid (st.channelMembers c) else st.channelMembers c,
   fun s => if s = sid then List.insert ch (st.joinedChannels s) else st.joinedChannels s⟩

/-- Modelled from the spec: Part(channel, session) (spec section 4.4)
removes the session from the member set and the channel from the session's
joined set; an emptied channel disappears (its member list becomes `[]`). -/
def partOp (st : RegState) (ch : String) (sid : Nat) : RegState :=
  ⟨fun c => if c = ch then (st.channelMembers c).filter (fun x => x ≠ sid)
            else st.channelMembers c,
   fun s => if s = sid then (st.joinedChannels s).filter (fun x => x ≠ ch)
            else st.joinedChannels s⟩

/-- Modelled from the spec: Quit cleanup (spec section 4.4) "iterates its
joined-channel set and performs Part on each". -/
def quitOp (st : RegState) (sid : Nat) : RegState :=
  (st.joinedChannels sid).foldl (fun s ch => partOp s ch sid) st

/-- Modelled from the spec: the membership-changing operations of section
4.4.  A kick is a Part of the kicked session performed by an operator; a
disconnect runs the same cleanup as an explicit quit. -/
inductive RegOp where
  | join (ch : String) (sid : Nat)
  | part (ch : String) (sid : Nat)
  | kick (ch : String) (sid : Nat)
  | quit (sid : Nat)
  | disconnect (sid : Nat)

/-- One registry operation applied to the state. -/
def regStep (st : RegState) : RegOp → RegState
  | RegOp.join ch sid => joinOp st ch sid
  | RegOp.part ch sid => partOp st ch sid
  | RegOp.kick ch sid => partOp st ch sid
  | RegOp.quit sid => quitOp st sid
  | RegOp.disconnect sid => quitOp st sid

/-- A sequence of registry operations run from the empty registry. -/
def regRun (ops : List RegOp) : RegState :=
  ops.foldl regStep regInit

/-- The cross-entity invariant of spec section 3: a session identifier is in
a channel's member set iff that channel's name is in the session's joined
set. -/
def RegInv (st : RegState) : Prop :=
  ∀ c s, s ∈ st.channelMembers c ↔ c ∈ st.joinedChannels s

theorem joinOp_inv {st : RegState} (h : RegInv st) (ch : String) (sid : Nat) :
    RegInv (joinOp st ch sid) := by
  intro c s
  simp only [joinOp]
  by_cases hc : c = ch <;> by_cases hs : s = sid <;>
    simp [hc, hs, List.mem_insert_iff, h c s, h ch s, h c sid]

theorem partOp_inv {st : RegState} (h : RegInv st) (ch : String) (sid : Nat) :
    RegInv (partOp st ch sid) := by
  intro c s
  simp only [partOp]
  by_cases hc : c = ch <;> by_cases hs : s = sid <;>
    simp [hc, hs, List.mem_filter, h c s, h ch s, h c sid, and_comm]

theorem partFold_inv (sid : Nat) :
    ∀ (l : List String) (st : RegState), RegInv st →
      RegInv (l.foldl (fun s ch => partOp s ch sid) st)
  | [], _, h => h
  | ch :: t, st, h => partFold_inv sid t (partOp st ch sid) (partOp_inv h ch sid)

theorem regStep_inv {st : RegState} (h : RegInv st) (op : RegOp) :
    RegInv (regStep st op) := by
  cases op with
  | join ch sid => exact joinOp_inv h ch sid
  | part ch sid => exact partOp_inv h ch sid
  | kick ch sid => exact partOp_inv h ch sid
  | quit sid => exact partFold_inv sid _ st h
  | disconnect sid => exact partFold_inv sid _ st h

theorem regSteps_inv : ∀ (ops : List RegOp) (st : RegState), RegInv st →
    RegInv (ops.foldl regStep st)
  | [], _, h => h
  | op :: t, st, h => regSteps_inv t (regStep st op) (regStep_inv h op)

/-- C6: after every sequence of operations (join, part, kick, quit,
disconnect) run from the empty registry, a channel's member set and each
session's joined-channel set are mutually consistent: a session identifier
is in a channel's members iff that channel's name is in the session's
joined set. -/
theorem membership_invariant_all_ops (ops : List RegOp) : RegInv (regRun ops) := by
  have hinit : RegInv regInit := by
    intro c s
    simp [regInit]
  exact regSteps_inv ops regInit hinit

/-- Modelled from the spec: the "no such channel" error reply (spec sections
6 and 8; the only trace in src is the empty macro `ERRNOSUCHCHANNEL()` at
server.hpp line 19). -/
def errNoSuchChannel : String := "no such channel"

/-- Modelled from the spec: the error reply for a membership precondition
violation (spec section 4.4: Message "requires sender to be a current
member"). -/
def errNotOnChannel : String := "not on channel"

/-- Modelled from the spec: Message(channel, sender, text) dispatch (spec
sections 4.4 and 4.5; `Command.hpp` and the dispatcher bodies are absent
from src).  Returns the registry state after the command together with the
ordered list of (target session id, message bytes) pairs.  A channel exists
iff its member list is non-empty.  When the channel does not exist or the
sender is not a member, the state is returned untouched and the only output
is an error reply to the sender; otherwise the text is relayed to every
member except the sender, in member-list order. -/
def messageOp (st : RegState) (ch : String) (sender : Nat) (text : String) :
    RegState × List (Nat × String) :=
  if st.channelMembers ch = [] then
    (st, [(sender, errNoSuchChannel)])
  else if sender ∈ st.channelMembers ch then
    (st, ((st.channelMembers ch).filter (fun m => m ≠ sender)).map (fun m => (m, text)))
  else
    (st, [(sender, errNotOnChannel)])

/-- C4: a channel message whose channel does not exist, or whose sender is
not a member, leaves the state unchanged, produces exactly one reply, to
the sender, whose body is an error (not the text), and targets no member of
the channel. -/
theorem messageOp_error_reply_only (st : RegState) (ch : String) (sender : Nat)
    (text : String)
    (h : st.channelMembers ch = [] ∨ sender ∉ st.channelMembers ch) :
    (messageOp st ch sender text).1 = st ∧
    ((messageOp st ch sender text).2 = [(sender, errNoSuchChannel)] ∨
     (messageOp st ch sender text).2 = [(sender, errNotOnChannel)]) ∧
    (∀ m ∈ st.channelMembers ch, ∀ p ∈ (messageOp st ch sender text).2, p.1 ≠ m) := by
  by_cases hempty : st.channelMembers ch = []
  · refine ⟨by simp [messageOp, hempty], Or.inl (by simp [messageOp, hempty]), ?_⟩
    intro m hm
    rw [hempty] at hm
    exact absurd hm (List.not_mem_nil m)
  · have hnot : sender ∉ st.channelMembers ch := by
      cases h with
      | inl h0 => exact absurd h0 hempty
      | inr h0 => exact h0
    refine ⟨by simp [messageOp, hempty, hnot], Or.inr (by simp [messageOp, hempty, hnot]), ?_⟩
    intro m hm p hp
    have hps : p = (sender, errNotOnChannel) := by
      simp [messageOp, hempty, hnot] at hp
      cases hp
      rfl
    intro hcontra
    rw [hps] at hcontra
    simp at hcontra
    rw [hcontra] at hnot
    exact hnot hm

/-- C4 witness: sending "hello" to "#y" in the empty registry, where "#y"
was never joined by anyone, leaves the state unchanged and yields exactly
the "no such channel" error reply to the sender. -/
theorem messageOp_error_reply_only_witness :
    regInit.channelMembers "#y" = [] ∧
    ((messageOp regInit "#y" 1 "hello").1 = regInit ∧
     ((messageOp regInit "#y" 1 "hello").2 = [(1, errNoSuchChannel)] ∨
      (messageOp regInit "#y" 1 "hello").2 = [(1, errNotOnChannel)]) ∧
     (∀ m ∈ regInit.channelMembers "#y",
        ∀ p ∈ (messageOp regInit "#y" 1 "hello").2, p.1 ≠ m)) :=
  ⟨rfl, messageOp_error_reply_only regInit "#y" 1 "hello" (Or.inl rfl)⟩

/-- C1: "Channel::sendMsg2All(sender, msg) sends msg exactly once to each
member whose socket differs from sender, and never sends msg to the member
whose socket equals sender" fails when the sender is the last member: with
members of sockets 1 and 2 and sender 2, the skip branch advances the index
to the vector size and the subsequent `channelClients[i]` access is out of
bounds (`Except.error`), instead of the claimed single send to socket 1. -/
theorem sendMsg2All_crashes_when_sender_last :
    sendMsg2All [⟨1, "a"⟩, ⟨2, "b"⟩] 2 = Except.error ()
      ∧ sendMsg2All [⟨1, "a"⟩, ⟨2, "b"⟩] 2 ≠ Except.ok [1] := by
  constructor
  · rfl
  · intro h
    simp [sendMsg2All, sendLoop, Except.map] at h

/-- C2: the while loop of `Channel::sendMsg2All` does not terminate when the
sender's socket matches the last element.  Under the idealized semantics in
which an out-of-bounds read yields garbage instead of trapping, starting
from the single-member vector `[⟨5, "n"⟩]` with sender 5 the index jumps
from 0 to 2, past the size 1, and `sendLoopUB` exhausts every fuel bound:
the guard `i != size()` never stops the loop. -/
theorem sendMsg2All_loop_diverges_when_sender_last :
    ∀ (garbage : Nat → Client) (fuel : Nat),
      sendLoopUB garbage [⟨5, "n"⟩] 5 0 fuel = none := by
  intro garbage fuel
  cases fuel with
  | zero => rfl
  | succ n =>
    have h2 : sendLoopUB garbage [⟨5, "n"⟩] 5 2 n = none :=
      sendLoopUB_overrun garbage [⟨5, "n"⟩] 5 n 2 (by simp)
    simp [sendLoopUB, h2]

/-- C3: "every index i used to access channelClients[i] is strictly less
than channelClients.size()" fails: with the single member of socket 7 and
sender 7, the skip branch advances `i` to 1 = size() and the send line then
reads `channelClients[1]`, one past the end (`Except.error` in the
embedding, in which every in-bounds run returns `Except.ok`). -/
theorem sendMsg2All_oob_access_singleton :
    sendMsg2All [⟨7, "x"⟩] 7 = Except.error () := rfl

/-- C5: "after Server::removeClient(vec, clientsock) returns, the vector
the caller passed no longer contains any element matching clientsock"
fails: the template receives its vector by value, so after
`removeClient([5], 5)` the caller's vector still contains the element 5. -/
theorem removeClient_caller_unchanged :
    removeClient [5] 5 = [5] ∧ (5 : Int) ∈ removeClient [5] 5 := by
  constructor
  · rfl
  · simp [removeClient]

/-- Helper for the framer: prepend one non-terminator byte to a
(lines, remainder) pair — onto the front of the first complete line when one
exists, otherwise onto the trailing partial line. -/
def consLine (c : Char) : List (List Char) × List Char → List (List Char) × List Char
  | ([], r) => ([], c :: r)
  | (l :: ls, r) => ((c :: l) :: ls, r)

/-- Modelled from the spec: the MessageFramer extraction (spec section 4.1;
the body of `Server::recieveData` is absent from src, server.hpp line 46
only declares it).  `splitLines xs` splits the byte sequence `xs` into the
complete terminator-delimited lines (without their terminators, in arrival
order) and the trailing partial line that stays in the per-connection
buffer.  The terminator is modelled as the line feed character (spec
section 6: CRLF preferred, LF tolerated). -/
def splitLines : List Char → List (List Char) × List Char
  | [] => ([], [])
  | c :: rest =>
    if c = Char.ofNat 10 then ([] :: (splitLines rest).1, (splitLines rest).2)
    else consLine c (splitLines rest)

theorem consLine_nil (c : Char) (r : List Char) :
    consLine c ([], r) = ([], c :: r) := rfl

theorem consLine_cons (c : Char) (l : List Char) (ls : List (List Char)) (r : List Char) :
    consLine c (l :: ls, r) = ((c :: l) :: ls, r) := rfl

/-- Splitting a concatenation: first split `xs`, then continue splitting
from its remainder followed by `ys`; the extracted lines concatenate. -/
theorem splitLines_append (xs ys : List Char) :
    splitLines (xs ++ ys) =
      ((splitLines xs).1 ++ (splitLines ((splitLines xs).2 ++ ys)).1,
       (splitLines ((splitLines xs).2 ++ ys)).2) := by
  induction xs with
  | nil => simp [splitLines]
  | cons c xs ih =>
    by_cases hc : c = Char.ofNat 10
    · simp [splitLines, hc, ih]
    · rcases h1 : splitLines xs with ⟨ls1, r1⟩
      cases ls1 with
      | nil =>
        rcases hB : splitLines (r1 ++ ys) with ⟨bl, br⟩
        cases bl with
        | nil =>
          simp [splitLines, hc, ih, h1, consLine_nil, hB]
        | cons b bs =>
          simp [splitLines, hc, ih, h1, consLine_nil, hB, consLine_cons]
      | cons l ls =>
        rcases hB : splitLines (r1 ++ ys) with ⟨bl, br⟩
        simp [splitLines, hc, ih, h1, consLine_cons, hB]

/-- The trailing partial line left in the buffer contains no terminator. -/
theorem splitLines_rem_no_term (xs : List Char) :
    ∀ c ∈ (splitLines xs).2, c ≠ Char.ofNat 10 := by
  induction xs with
  | nil => intro c hc; cases hc
  | cons a xs ih =>
    by_cases ha : a = Char.ofNat 10
    · simpa [splitLines, ha] using ih
    · rcases h1 : splitLines xs with ⟨ls1, r1⟩
      cases ls1 with
      | nil =>
        intro c hc
        simp [splitLines, ha, h1, consLine_nil] at hc
        cases hc with
        | inl h0 => rw [h0]; exact ha
        | inr h0 => exact ih c (by rw [h1]; exact h0)
      | cons l ls =>
        intro c hc
        simp [splitLines, ha, h1, consLine_cons] at hc
        exact ih c (by rw [h1]; exact hc)

/-- A terminator-free byte sequence yields no complete line and stays in
the buffer whole. -/
theorem splitLines_no_term (xs : List Char) (h : ∀ c ∈ xs, c ≠ Char.ofNat 10) :
    splitLines xs = ([], xs) := by
  induction xs with
  | nil => rfl
  | cons c rest ih =>
    have hc : c ≠ Char.ofNat 10 := h c (List.mem_cons_self c rest)
    have hrest := ih (fun d hd => h d (List.mem_cons_of_mem c hd))
    simp [splitLines, hc, hrest, consLine_nil]

/-- Feeding a sequence of read chunks to the framer one at a time,
threading the per-connection buffer, and collecting the extracted lines in
order (the read loop of spec section 4.6 over the framer of section 4.1). -/
def feedAll (buf : List Char) : List (List Char) → List (List Char) × List Char
  | [] => ([], buf)
  | chunk :: rest =>
    ((splitLines (buf ++ chunk)).1 ++ (feedAll (splitLines (buf ++ chunk)).2 rest).1,
     (feedAll (splitLines (buf ++ chunk)).2 rest).2)

theorem feedAll_eq (chunks : List (List Char)) :
    ∀ buf : List Char, (∀ c ∈ buf, c ≠ Char.ofNat 10) →
      feedAll buf chunks = splitLines (buf ++ chunks.flatten) := by
  induction chunks with
  | nil =>
    intro buf hbuf
    simp [feedAll, splitLines_no_term buf hbuf]
  | cons chunk rest ih =>
    intro buf hbuf
    have hrem := splitLines_rem_no_term (buf ++ chunk)
    have hih := ih (splitLines (buf ++ chunk)).2 hrem
    have happ := splitLines_append (buf ++ chunk) rest.flatten
    simp only [feedAll, hih, List.flatten_cons, ← List.append_assoc, happ]

/-- C9: MessageFramer output is independent of read chunking: feeding the
chunks of a byte sequence one at a time to the framer (starting from an
empty buffer) yields exactly the complete lines, in order, and the trailing
partial line, that feeding the whole concatenated sequence at once
yields. -/
theorem framer_chunking_independent (chunks : List (List Char)) :
    feedAll [] chunks = splitLines chunks.flatten := by
  have h := feedAll_eq chunks [] (by intro c hc; cases hc)
  simpa using h

/-- The server-side constant `#define BUFFER_SIZE 1024 * 1024`
(server.hpp line 18). -/
def BUFFER_SIZE : Nat := 1024 * 1024

/-- A framer event: a complete line, or the rejection of an oversized
line whose bytes were discarded up to the terminator. -/
inductive FrameEv where
  | line (l : List Char)
  | tooLong
deriving DecidableEq

/-- Modelled from the spec: oversized-line rejection (spec sections 4.1 and
6; the body of `Server::recieveData` is absent from src).  Each complete
line longer than BUFFER_SIZE is discarded up to its terminator and replaced
by a `tooLong` condition; the other complete lines are delivered
unchanged, and the trailing partial line stays in the buffer. -/
def frameEvents (buf input : List Char) : List FrameEv × List Char :=
  ((splitLines (buf ++ input)).1.map
     (fun l => if BUFFER_SIZE < l.length then FrameEv.tooLong else FrameEv.line l),
   (splitLines (buf ++ input)).2)

/-- Modelled from the spec: the "line too long" ProtocolError reply text
(spec sections 4.1 and 7). -/
def errLineTooLong : String := "line too long"

/-- Modelled from the spec: the server's reaction to a ProtocolError such
as an oversized line (spec section 7): the error is reported to the origin
connection only and the connection stays open (`true`). -/
def reactTooLong (origin : Nat) : List (Nat × String) × Bool :=
  ([(origin, errLineTooLong)], true)

/-- C7: the maximum accepted line length is the fixed constant BUFFER_SIZE
= 1024 * 1024; every complete input line exceeding it is turned into a
`tooLong` condition (its bytes never appear as a delivered line — they are
discarded up to the next terminator), the origin connection alone gets the
error reply, and the connection stays open. -/
theorem oversized_line_rejected (buf input l : List Char) (origin : Nat)
    (hmem : l ∈ (splitLines (buf ++ input)).1) (hlen : BUFFER_SIZE < l.length) :
    BUFFER_SIZE = 1024 * 1024 ∧
    FrameEv.tooLong ∈ (frameEvents buf input).1 ∧
    (∀ ev ∈ (frameEvents buf input).1, ev ≠ FrameEv.line l) ∧
    reactTooLong origin = ([(origin, errLineTooLong)], true) := by
  refine ⟨rfl, ?_, ?_, rfl⟩
  · have : (if BUFFER_SIZE < l.length then FrameEv.tooLong else FrameEv.line l)
        ∈ (frameEvents buf input).1 := by
      exact List.mem_map_of_mem _ hmem
    rwa [if_pos hlen] at this
  · intro ev hev
    rcases List.mem_map.mp hev with ⟨l2, hl2, hev2⟩
    by_cases h2 : BUFFER_SIZE < l2.length
    · rw [if_pos h2] at hev2
      rw [← hev2]
      intro hcontra
      exact FrameEv.noConfusion hcontra
    · rw [if_neg h2] at hev2
      rw [← hev2]
      intro hcontra
      have : l2 = l := by
        injection hcontra
      rw [this] at h2
      exact h2 hlen

/-- A terminator-free sequence followed by one terminator frames as exactly
one complete line. -/
theorem splitLines_single (xs : List Char) (h : ∀ c ∈ xs, c ≠ Char.ofNat 10) :
    splitLines (xs ++ [Char.ofNat 10]) = ([xs], []) := by
  induction xs with
  | nil => simp [splitLines]
  | cons c rest ih =>
    have hc : c ≠ Char.ofNat 10 := h c (List.mem_cons_self c rest)
    have hrest := ih (fun d hd => h d (List.mem_cons_of_mem c hd))
    simp [splitLines, hc, hrest, consLine_cons]

/-- The concrete oversized line: BUFFER_SIZE + 1 bytes of `a`. -/
def longLine : List Char := List.replicate (BUFFER_SIZE + 1) 'a'

theorem longLine_no_term : ∀ c ∈ longLine, c ≠ Char.ofNat 10 := by
  intro c hc
  have : c = 'a' := (List.mem_replicate.mp hc).2
  rw [this]
  decide

/-- C7 witness: a line of 1024*1024 + 1 bytes of `a` arriving terminated on
connection 3 with an empty buffer is framed, exceeds BUFFER_SIZE, becomes a
`tooLong` condition rather than a delivered line, and the reaction is one
error reply to connection 3 with the connection left open. -/
theorem oversized_line_rejected_witness :
    (longLine ∈ (splitLines ([] ++ (longLine ++ [Char.ofNat 10]))).1 ∧
     BUFFER_SIZE < longLine.length) ∧
    (BUFFER_SIZE = 1024 * 1024 ∧
     FrameEv.tooLong ∈ (frameEvents [] (longLine ++ [Char.ofNat 10])).1 ∧
     (∀ ev ∈ (frameEvents [] (longLine ++ [Char.ofNat 10])).1, ev ≠ FrameEv.line longLine) ∧
     reactTooLong 3 = ([(3, errLineTooLong)], true)) := by
  have hmem : longLine ∈ (splitLines ([] ++ (longLine ++ [Char.ofNat 10]))).1 := by
    rw [List.nil_append, splitLines_single longLine longLine_no_term]
    exact List.mem_singleton.mpr rfl
  have hlen : BUFFER_SIZE < longLine.length := by
    rw [longLine, List.length_replicate]
    omega
  exact ⟨⟨hmem, hlen⟩, oversized_line_rejected [] (longLine ++ [Char.ofNat 10]) longLine 3 hmem hlen⟩

/-- Shallow embedding of the loop of `Channel::getChannelClientByName`
(Channel.hpp lines 41-53):

    std::string names;
    size_t i = 0;
    while (i < channelClients.size())
    \x7b
        names += channelClients[i].getNickName();
        i++;
        if (i < channelClients.size())
            names += "\n";
    \x7d
    return names;

One iteration appends the nickname at index `i`, advances `i`, and appends
a newline exactly when another member remains. -/
def nameLoop (channelClients : List Client) (i : Nat) (names : String) : String :=
  if h : i < channelClients.length then
    nameLoop channelClients (i + 1)
      (if i + 1 < channelClients.length
       then names ++ (channelClients.get ⟨i, h⟩).nickName ++ "\n"
       else names ++ (channelClients.get ⟨i, h⟩).nickName)
  else names
termination_by channelClients.length - i

/-- `Channel::getChannelClientByName()`: run the loop from `i = 0` with the
empty accumulator. -/
def getChannelClientByName (channelClients : List Client) : String :=
  nameLoop channelClients 0 ""

/-- The specified result shape: the given strings in order, separated by
single newline characters, with no leading or trailing separator, and the
empty string for the empty list. -/
def joinLF : List String → String
  | [] => ""
  | [a] => a
  | a :: b :: t => a ++ "\n" ++ joinLF (b :: t)

theorem nameLoop_eq (channelClients : List Client) :
    ∀ (n i : Nat) (names : String), channelClients.length - i = n →
      nameLoop channelClients i names =
        names ++ joinLF ((channelClients.drop i).map Client.nickName) := by
  intro n
  induction n with
  | zero =>
    intro i names hn
    have hge : channelClients.length ≤ i := by omega
    rw [nameLoop]
    simp [Nat.not_lt.mpr hge, List.drop_eq_nil_of_le hge, joinLF]
  | succ m ih =>
    intro i names hn
    have hi : i < channelClients.length := by omega
    have hdrop : channelClients.drop i = channelClients[i] :: channelClients.drop (i + 1) :=
      List.drop_eq_getElem_cons hi
    rw [nameLoop]
    rw [dif_pos hi]
    rw [ih (i + 1) _ (by omega)]
    by_cases h2 : i + 1 < channelClients.length
    · have hne : channelClients.drop (i + 1) ≠ [] := by
        intro h0
        have := List.drop_eq_nil_iff.mp h0
        omega
      rcases hd : channelClients.drop (i + 1) with _ | ⟨b, t⟩
      · exact absurd hd hne
      · rw [if_pos h2, hdrop, hd]
        simp only [List.map_cons, joinLF]
        simp [List.get_eq_getElem, String.append_assoc]
    · have hd : channelClients.drop (i + 1) = [] := by
        apply List.drop_eq_nil_of_le
        omega
      rw [if_neg h2, hdrop, hd]
      simp only [List.map_cons, List.map_nil, joinLF]
      rw [String.append_empty]
      simp [List.get_eq_getElem]

/-- C8: `Channel::getChannelClientByName` returns exactly the members'
nicknames, one per member in insertion order, separated by single newline
characters with no leading or trailing separator, and the empty string for
a channel with no members. -/
theorem getChannelClientByName_joins_nicknames (channelClients : List Client) :
    getChannelClientByName channelClients =
      joinLF (channelClients.map Client.nickName) ∧
    getChannelClientByName [] = "" := by
  constructor
  · rw [getChannelClientByName, nameLoop_eq channelClients (channelClients.length - 0) 0 "" rfl]
    rw [List.drop_zero, String.empty_append]
  · rw [getChannelClientByName, nameLoop_eq [] 0 0 "" rfl]
    rfl

/-- Modelled from the spec: `Channel::AddUser2Channel(Client* User)` — its
body is absent from src, but the member declaration
`std::vector<Client> channelClients` (Channel.hpp line 69) stores `Client`
objects by value, so any insertion of `*User` into the vector stores a copy
of the Client as it is at join time. -/
def addUser2Channel (channelClients : List Client) (user : Client) : List Client :=
  channelClients ++ [user]

/-- A nickname change applied to the server's own client table
`Server::clients` (server.hpp line 27): the record with the given socket
gets the new nickname; other records are untouched. -/
def setNickInServer (clients : List Client) (sock : Int) (nk : String) : List Client :=
  clients.map (fun c => if c.clientSock = sock then ⟨c.clientSock, nk⟩ else c)

/-- The two vectors a channel message path can observe: the server's client
table (`Server::clients`) and one channel's member vector
(`Channel::channelClients`).  They are distinct `std::vector<Client>`
objects holding separate `Client` values. -/
structure World where
  serverClients : List Client
  channelClients : List Client

/-- Join: the channel's vector gains a copy of the user; the server table
is untouched. -/
def wAddUser (w : World) (u : Client) : World :=
  ⟨w.serverClients, addUser2Channel w.channelClients u⟩

/-- Nickname change: applied to the server table only, because the
channel's vector holds its own copies. -/
def wSetNick (w : World) (sock : Int) (nk : String) : World :=
  ⟨setNickInServer w.serverClients sock nk, w.channelClients⟩

/-- C10: a channel stores copies, not references: after
`AddUser2Channel(u)`, renaming the Server record with u's socket leaves the
channel's member vector unchanged, so `getChannelClientByName` and
`sendMsg2All` observe only the copy stored at join time; in particular a
channel that held only u still lists u's join-time nickname after the
server-side rename. -/
theorem channel_stores_copies_frame (w : World) (u : Client) (nk : String) :
    (wSetNick (wAddUser w u) u.clientSock nk).channelClients
        = (wAddUser w u).channelClients ∧
    getChannelClientByName (wSetNick (wAddUser w u) u.clientSock nk).channelClients
        = getChannelClientByName (addUser2Channel w.channelClients u) ∧
    (∀ sender : Int,
      sendMsg2All (wSetNick (wAddUser w u) u.clientSock nk).channelClients sender
        = sendMsg2All (addUser2Channel w.channelClients u) sender) ∧
    getChannelClientByName
        (wSetNick (wAddUser ⟨w.serverClients, []⟩ u) u.clientSock nk).channelClients
      = u.nickName := by
  refine ⟨rfl, rfl, fun _ => rfl, ?_⟩
  show getChannelClientByName [u] = u.nickName
  rw [getChannelClientByName, nameLoop_eq [u] 1 0 "" rfl]
  show "" ++ u.nickName = u.nickName
  rw [String.empty_append]

end IRC
